import Mathlib

/-!
# Verification of the personal-finance chatbot core (`app.py`)

Shallow embedding of the ledger store, the transaction extractor, the intent
classifier and the conversation router of `app.py`, together with theorems
settling the specification's claims about them.

Modelling conventions:
* SQLite `REAL` amounts are modelled as `ℚ` (exact arithmetic; no claim here
  depends on floating-point rounding).
* `datetime.date.today()` is modelled as an explicit `today : String`
  parameter (the ambient clock of the process).
* The external language model (`ollama` subprocess) is opaque: the router
  records the request it would send (prompt and system instruction) as an
  observable output instead of performing I/O.
* The embedding model (`SentenceTransformer.encode` + `util.cos_sim`) is
  opaque: `classify_intent` is parametrised by a similarity function
  `sim : String → String → ℚ` giving the cosine similarity between the
  message and an example phrase.  The claims about classification concern
  the max/argmax selection structure, which is independent of the numeric
  values `sim` takes.
* Python strings are modelled over their character lists; `str.isdigit`,
  `str.lower`, `str.strip` are modelled with their ASCII semantics.
-/

/-- One row of the SQLite `transactions` table:
`(id, type, amount, category, description, date)`. -/
structure Transaction where
  id : Nat
  ttype : String
  amount : ℚ
  category : String
  description : String
  date : String
deriving Repr, DecidableEq

/-- The persisted ledger: the `transactions` table together with the next
auto-increment identifier.  Rows are kept in insertion order. -/
structure Ledger where
  nextId : Nat
  rows : List Transaction
deriving Repr, DecidableEq

/-- `init_db` of `app.py`: an empty table; SQLite `AUTOINCREMENT` starts
assigning identifiers at 1. -/
def init_db : Ledger := ⟨1, []⟩

/-- Well-formedness of a ledger as SQLite maintains it: row identifiers are
strictly increasing in insertion order and below the auto-increment counter. -/
def Ledger.WF (l : Ledger) : Prop :=
  l.rows.Pairwise (fun a b => a.id < b.id) ∧ ∀ t ∈ l.rows, t.id < l.nextId

/-- `add_transaction` of `app.py`: `INSERT INTO transactions ... VALUES (...)`
with the date of insertion; the fresh row receives the auto-increment id. -/
def add_transaction (l : Ledger) (t_type : String) (amount : ℚ)
    (category description today : String) : Ledger :=
  { nextId := l.nextId + 1
    rows := l.rows ++
      [{ id := l.nextId, ttype := t_type, amount := amount,
         category := category, description := description, date := today }] }

/-- `edit_transaction` of `app.py`:
`UPDATE transactions SET type=?, amount=?, category=?, description=? WHERE id=?`.
Every row whose id matches has its four mutable columns replaced; `id` and
`date` are not in the SET list and stay. -/
def edit_transaction (l : Ledger) (t_id : Nat) (t_type : String) (amount : ℚ)
    (category description : String) : Ledger :=
  { l with rows := l.rows.map (fun t =>
      if t.id = t_id then
        { t with ttype := t_type, amount := amount,
                 category := category, description := description }
      else t) }

/-- `delete_transaction` of `app.py`: `DELETE FROM transactions WHERE id=?`. -/
def delete_transaction (l : Ledger) (t_id : Nat) : Ledger :=
  { l with rows := l.rows.filter (fun t => t.id ≠ t_id) }

/-- SQL `SELECT SUM(amount) FROM ...`: `NULL` (here `none`) when the selected
row set is empty, otherwise the sum of the `amount` column. -/
def sqlSumAmount (rows : List Transaction) : Option ℚ :=
  if rows = [] then none else some ((rows.map Transaction.amount).sum)

/-- `get_summary` of `app.py`: the two `SUM(amount)` queries, each with the
Python `fetchone()[0] or 0` defaulting (`NULL` becomes `0`; a present sum of
`0` is also `0`), and the derived net `income - expenses`. -/
def get_summary (l : Ledger) : ℚ × ℚ × ℚ :=
  let income := (sqlSumAmount (l.rows.filter (fun t => t.ttype = "Income"))).getD 0
  let expenses := (sqlSumAmount (l.rows.filter (fun t => t.ttype = "Expense"))).getD 0
  (income, expenses, income - expenses)

/-- Insertion step of `ORDER BY id DESC`: place `t` after the rows whose id
is at least `t.id`. -/
def insertDescById (t : Transaction) : List Transaction → List Transaction
  | [] => [t]
  | a :: rest => if t.id ≤ a.id then a :: insertDescById t rest else t :: a :: rest

/-- `ORDER BY id DESC` as an insertion sort on the stored rows. -/
def sortDescById : List Transaction → List Transaction
  | [] => []
  | a :: rest => insertDescById a (sortDescById rest)

/-- `get_transactions` of `app.py`:
`SELECT * FROM transactions ORDER BY id DESC`. -/
def get_transactions (l : Ledger) : List Transaction := sortDescById l.rows

/-- Specification-side income total: a direct fold over the rows, summing the
amounts of `Income` rows. -/
def specIncomeTotal (l : Ledger) : ℚ :=
  l.rows.foldr (fun t acc => if t.ttype = "Income" then t.amount + acc else acc) 0

/-- Specification-side expense total: a direct fold over the rows, summing the
amounts of `Expense` rows. -/
def specExpenseTotal (l : Ledger) : ℚ :=
  l.rows.foldr (fun t acc => if t.ttype = "Expense" then t.amount + acc else acc) 0

theorem sqlSumAmount_getD (rows : List Transaction) :
    (sqlSumAmount rows).getD 0 = (rows.map Transaction.amount).sum := by
  unfold sqlSumAmount
  split
  · subst rows; simp
  · simp

theorem foldr_bucket_eq_sum (ty : String) (rows : List Transaction) :
    rows.foldr (fun t acc => if t.ttype = ty then t.amount + acc else acc) 0
      = ((rows.filter (fun t => t.ttype = ty)).map Transaction.amount).sum := by
  induction rows with
  | nil => simp
  | cons a rest ih =>
      by_cases h : a.ttype = ty
      · simp [List.filter_cons, h, ih]
      · simp [List.filter_cons, h, ih]

/-- C10: `get_summary` returns the triple
(income total, expense total, income − expenses), each total defaulting to 0
when no matching rows exist; on the empty ledger it returns (0, 0, 0). -/
theorem get_summary_spec :
    (∀ l : Ledger,
      get_summary l = (specIncomeTotal l, specExpenseTotal l,
                       specIncomeTotal l - specExpenseTotal l))
    ∧ get_summary init_db = (0, 0, 0) := by
  constructor
  · intro l
    unfold get_summary specIncomeTotal specExpenseTotal
    rw [sqlSumAmount_getD, sqlSumAmount_getD,
        foldr_bucket_eq_sum, foldr_bucket_eq_sum]
  · simp [get_summary, init_db, sqlSumAmount]

theorem mem_insertDescById {x t : Transaction} {l : List Transaction} :
    x ∈ insertDescById t l ↔ x = t ∨ x ∈ l := by
  induction l with
  | nil => simp [insertDescById]
  | cons a rest ih =>
      by_cases h : t.id ≤ a.id
      · simp only [insertDescById, if_pos h, List.mem_cons, ih]
        tauto
      · simp only [insertDescById, if_neg h, List.mem_cons]

theorem pairwise_insertDescById {t : Transaction} {l : List Transaction}
    (hl : l.Pairwise (fun a b => b.id ≤ a.id)) :
    (insertDescById t l).Pairwise (fun a b => b.id ≤ a.id) := by
  induction l with
  | nil => simp [insertDescById]
  | cons a rest ih =>
      rcases List.pairwise_cons.mp hl with ⟨ha, hrest⟩
      by_cases h : t.id ≤ a.id
      · rw [insertDescById, if_pos h]
        refine List.pairwise_cons.mpr ⟨?_, ih hrest⟩
        intro x hx
        rcases mem_insertDescById.mp hx with rfl | hx'
        · exact h
        · exact ha x hx'
      · rw [insertDescById, if_neg h]
        refine List.pairwise_cons.mpr ⟨?_, hl⟩
        intro x hx
        rcases List.mem_cons.mp hx with rfl | hx'
        · exact le_of_lt (lt_of_not_le h)
        · exact le_trans (ha x hx') (le_of_lt (lt_of_not_le h))

theorem pairwise_sortDescById (l : List Transaction) :
    (sortDescById l).Pairwise (fun a b => b.id ≤ a.id) := by
  induction l with
  | nil => simp [sortDescById]
  | cons a rest ih => exact pairwise_insertDescById ih

theorem sortDescById_append_max (rows : List Transaction) (t : Transaction)
    (h : ∀ x ∈ rows, x.id < t.id) :
    sortDescById (rows ++ [t]) = t :: sortDescById rows := by
  induction rows with
  | nil => simp [sortDescById, insertDescById]
  | cons a rest ih =>
      have ha : a.id < t.id := h a (by simp)
      have h' : ∀ x ∈ rest, x.id < t.id := fun x hx => h x (by simp [hx])
      show insertDescById a (sortDescById (rest ++ [t]))
        = t :: insertDescById a (sortDescById rest)
      rw [ih h', insertDescById, if_pos (le_of_lt ha)]

theorem get_summary_add (l : Ledger) (ty : String) (amt : ℚ)
    (cat desc today : String) :
    get_summary (add_transaction l ty amt cat desc today)
      = ((get_summary l).1 + (if ty = "Income" then amt else 0),
         (get_summary l).2.1 + (if ty = "Expense" then amt else 0),
         ((get_summary l).1 + (if ty = "Income" then amt else 0))
           - ((get_summary l).2.1 + (if ty = "Expense" then amt else 0))) := by
  unfold get_summary add_transaction
  simp only [sqlSumAmount_getD, List.filter_append, List.map_append,
    List.sum_append, List.filter_cons, List.filter_nil]
  by_cases hI : ty = "Income" <;> by_cases hE : ty = "Expense" <;> simp_all

/-- C7: after `add_transaction` on a well-formed ledger, `get_transactions`
returns exactly the new row (with the given fields and the insertion date)
followed by the previous rows unchanged, the returned sequence is ordered by
identifier descending, and `get_summary` reflects the added amount in the
bucket matching the kind. -/
theorem add_transaction_spec (l : Ledger) (hWF : l.WF) (ty : String)
    (hty : ty = "Income" ∨ ty = "Expense") (amt : ℚ) (hamt : 0 ≤ amt)
    (cat desc today : String) :
    get_transactions (add_transaction l ty amt cat desc today)
      = { id := l.nextId, ttype := ty, amount := amt, category := cat,
          description := desc, date := today } :: get_transactions l
    ∧ (get_transactions (add_transaction l ty amt cat desc today)).Pairwise
        (fun a b => b.id ≤ a.id)
    ∧ (ty = "Income" →
        get_summary (add_transaction l ty amt cat desc today)
          = ((get_summary l).1 + amt, (get_summary l).2.1,
             (get_summary l).1 + amt - (get_summary l).2.1))
    ∧ (ty = "Expense" →
        get_summary (add_transaction l ty amt cat desc today)
          = ((get_summary l).1, (get_summary l).2.1 + amt,
             (get_summary l).1 - ((get_summary l).2.1 + amt))) := by
  refine ⟨?_, ?_, ?_, ?_⟩
  · unfold get_transactions add_transaction
    exact sortDescById_append_max l.rows _ (fun x hx => hWF.2 x hx)
  · exact pairwise_sortDescById _
  · intro hI
    rw [get_summary_add, if_pos hI, if_neg (by rw [hI]; decide)]
    simp
  · intro hE
    rw [get_summary_add, if_neg (by rw [hE]; decide), if_pos hE]
    simp

/-- Witness for C7 at a concrete input. -/
theorem add_transaction_spec_witness :
    get_transactions (add_transaction init_db "Income" 5 "General" "salary" "2026-10-12")
      = [{ id := 1, ttype := "Income", amount := 5, category := "General",
           description := "salary", date := "2026-10-12" }]
    ∧ get_summary (add_transaction init_db "Income" 5 "General" "salary" "2026-10-12")
      = (5, 0, 5) := by
  have hWF : init_db.WF := ⟨List.Pairwise.nil, by simp [init_db]⟩
  have h := add_transaction_spec init_db hWF "Income" (Or.inl rfl) 5
    (by norm_num) "General" "salary" "2026-10-12"
  have hsum : get_summary init_db = (0, 0, 0) := by
    simp [get_summary, init_db, sqlSumAmount]
  refine ⟨?_, ?_⟩
  · rw [h.1]
    simp [get_transactions, init_db, sortDescById]
  · rw [h.2.2.1 rfl, hsum]
    norm_num

theorem map_eq_self_of_mem {α : Type} {l : List α} {f : α → α}
    (h : ∀ a ∈ l, f a = a) : l.map f = l := by
  conv_rhs => rw [← List.map_id l]
  exact List.map_congr_left h

theorem ids_of_decomposition {l : Ledger} (hWF : l.WF)
    {pre post : List Transaction} {t0 : Transaction}
    (hdec : l.rows = pre ++ t0 :: post) :
    (∀ a ∈ pre, a.id ≠ t0.id) ∧ (∀ b ∈ post, b.id ≠ t0.id) := by
  have hp : (pre ++ t0 :: post).Pairwise (fun a b => a.id < b.id) := by
    rw [← hdec]; exact hWF.1
  rcases List.pairwise_append.mp hp with ⟨_, hcons, hcross⟩
  constructor
  · intro a ha
    exact Nat.ne_of_lt (hcross a ha t0 (List.mem_cons_self t0 post))
  · intro b hb
    exact Nat.ne_of_gt ((List.pairwise_cons.mp hcons).1 b hb)

/-- C8: on a well-formed ledger, `edit_transaction` on an existing identifier
replaces exactly that row's four mutable fields while keeping its identifier
and recorded date and leaving every other row in place; the record count never
changes; and on a missing identifier it is a silent no-op. -/
theorem edit_transaction_spec (l : Ledger) (hWF : l.WF) (tid : Nat)
    (ty : String) (amt : ℚ) (cat desc : String) :
    (∀ pre t0 post, l.rows = pre ++ t0 :: post → t0.id = tid →
      (edit_transaction l tid ty amt cat desc).rows
        = pre ++ { t0 with ttype := ty, amount := amt, category := cat, description := desc } :: post)
    ∧ (edit_transaction l tid ty amt cat desc).rows.length = l.rows.length
    ∧ ((∀ t ∈ l.rows, t.id ≠ tid) → edit_transaction l tid ty amt cat desc = l) := by
  refine ⟨?_, ?_, ?_⟩
  · intro pre t0 post hdec hid
    rcases ids_of_decomposition hWF hdec with ⟨hpre, hpost⟩
    show l.rows.map _ = _
    rw [hdec, List.map_append, List.map_cons]
    have h1 : pre.map (fun t =>
        if t.id = tid then { t with ttype := ty, amount := amt, category := cat, description := desc } else t) = pre := by
      refine map_eq_self_of_mem ?_
      intro a ha
      rw [if_neg (hid ▸ hpre a ha)]
    have h2 : post.map (fun t =>
        if t.id = tid then { t with ttype := ty, amount := amt, category := cat, description := desc } else t) = post := by
      refine map_eq_self_of_mem ?_
      intro b hb
      rw [if_neg (hid ▸ hpost b hb)]
    rw [h1, h2, if_pos hid]
  · exact List.length_map _ _
  · intro h
    have : l.rows.map (fun t =>
        if t.id = tid then { t with ttype := ty, amount := amt, category := cat, description := desc } else t) = l.rows := by
      refine map_eq_self_of_mem ?_
      intro a ha
      rw [if_neg (h a ha)]
    show ({ l with rows := _ } : Ledger) = l
    rw [this]

/-- Witness for C8 at a concrete two-row ledger: editing id 2 replaces its
mutable fields and keeps its date; editing the absent id 5 is a no-op. -/
theorem edit_transaction_spec_witness :
    (edit_transaction ⟨3, [⟨1, "Income", 10, "a", "b", "d1"⟩,
                           ⟨2, "Expense", 4, "c", "d", "d2"⟩]⟩
        2 "Expense" 7 "x" "y").rows
      = [⟨1, "Income", 10, "a", "b", "d1"⟩, ⟨2, "Expense", 7, "x", "y", "d2"⟩]
    ∧ edit_transaction ⟨3, [⟨1, "Income", 10, "a", "b", "d1"⟩,
                            ⟨2, "Expense", 4, "c", "d", "d2"⟩]⟩
        5 "Expense" 7 "x" "y"
      = ⟨3, [⟨1, "Income", 10, "a", "b", "d1"⟩,
             ⟨2, "Expense", 4, "c", "d", "d2"⟩]⟩ := by
  have hWF : (Ledger.mk 3 [⟨1, "Income", 10, "a", "b", "d1"⟩,
                           ⟨2, "Expense", 4, "c", "d", "d2"⟩]).WF := by
    constructor
    · decide
    · decide
  constructor
  · exact (edit_transaction_spec _ hWF 2 "Expense" 7 "x" "y").1
      [⟨1, "Income", 10, "a", "b", "d1"⟩] ⟨2, "Expense", 4, "c", "d", "d2"⟩ []
      rfl rfl
  · exact (edit_transaction_spec _ hWF 5 "Expense" 7 "x" "y").2.2 (by decide)

/-- C9: on a well-formed ledger, `delete_transaction` on an existing
identifier removes exactly that row, leaving all other rows unchanged; on a
missing identifier it is a silent no-op leaving the ledger unchanged. -/
theorem delete_transaction_spec (l : Ledger) (hWF : l.WF) (tid : Nat) :
    (∀ pre t0 post, l.rows = pre ++ t0 :: post → t0.id = tid →
      (delete_transaction l tid).rows = pre ++ post)
    ∧ ((∀ t ∈ l.rows, t.id ≠ tid) → delete_transaction l tid = l) := by
  constructor
  · intro pre t0 post hdec hid
    rcases ids_of_decomposition hWF hdec with ⟨hpre, hpost⟩
    show l.rows.filter _ = _
    rw [hdec, List.filter_append, List.filter_cons]
    have h1 : pre.filter (fun t => t.id ≠ tid) = pre := by
      rw [List.filter_eq_self]
      intro a ha
      simpa using hid ▸ hpre a ha
    have h2 : post.filter (fun t => t.id ≠ tid) = post := by
      rw [List.filter_eq_self]
      intro b hb
      simpa using hid ▸ hpost b hb
    rw [h1, h2]
    simp [hid]
  · intro h
    have : l.rows.filter (fun t => t.id ≠ tid) = l.rows := by
      rw [List.filter_eq_self]
      intro a ha
      simpa using h a ha
    show ({ l with rows := _ } : Ledger) = l
    rw [this]

/-- Witness for C9 at a concrete two-row ledger: deleting id 1 removes exactly
that row; deleting the absent id 7 is a no-op. -/
theorem delete_transaction_spec_witness :
    (delete_transaction ⟨3, [⟨1, "Income", 10, "a", "b", "d1"⟩,
                             ⟨2, "Expense", 4, "c", "d", "d2"⟩]⟩ 1).rows
      = [⟨2, "Expense", 4, "c", "d", "d2"⟩]
    ∧ delete_transaction ⟨3, [⟨1, "Income", 10, "a", "b", "d1"⟩,
                              ⟨2, "Expense", 4, "c", "d", "d2"⟩]⟩ 7
      = ⟨3, [⟨1, "Income", 10, "a", "b", "d1"⟩,
             ⟨2, "Expense", 4, "c", "d", "d2"⟩]⟩ := by
  have hWF : (Ledger.mk 3 [⟨1, "Income", 10, "a", "b", "d1"⟩,
                           ⟨2, "Expense", 4, "c", "d", "d2"⟩]).WF := by
    constructor
    · decide
    · decide
  constructor
  · exact (delete_transaction_spec _ hWF 1).1
      [] ⟨1, "Income", 10, "a", "b", "d1"⟩ [⟨2, "Expense", 4, "c", "d", "d2"⟩]
      rfl rfl
  · exact (delete_transaction_spec _ hWF 7).2 (by decide)

/-! ## String primitives (ASCII semantics of the Python string methods used) -/

/-- The separator `"for"` of the category extraction, as characters. -/
def forL : List Char := ['f', 'o', 'r']

/-- `beginsWith p l`: `l` starts with the pattern `p`. -/
def beginsWith : List Char → List Char → Bool
  | [], _ => true
  | _ :: _, [] => false
  | p :: ps, c :: cs => p == c && beginsWith ps cs

/-- Python `sub in s`: some position of `l` starts with `sep`. -/
def hasSub (sep : List Char) : List Char → Bool
  | [] => beginsWith sep []
  | c :: cs => beginsWith sep (c :: cs) || hasSub sep cs

/-- Prepend a character to the first piece of a split (used while scanning
left of the first separator occurrence). -/
def consHead (c : Char) : List (List Char) → List (List Char)
  | [] => [[c]]
  | t :: ts => (c :: t) :: ts

/-- Python `s.split("for")`: scan left to right; each (non-overlapping)
occurrence of `"for"` ends a piece; `"".split("for") = [""]`. -/
def splitForAux (l : List Char) : List (List Char) :=
  match l with
  | [] => [[]]
  | c :: cs =>
    if beginsWith forL (c :: cs) then [] :: splitForAux (cs.drop 2)
    else consHead c (splitForAux cs)
termination_by l.length
decreasing_by
  · simp
    omega
  · simp

/-- The suffix of `l` after the last occurrence of `"for"` (`none` when
`"for"` does not occur): the specification's reading of
`split("for")[-1]`. -/
def lastOccSuffixFor : List Char → Option (List Char)
  | [] => none
  | c :: cs =>
    match lastOccSuffixFor cs with
    | some t => some t
    | none => if beginsWith forL (c :: cs) then some (cs.drop 2) else none

theorem length_dropWhile_le_self (p : Char → Bool) (cs : List Char) :
    (cs.dropWhile p).length ≤ cs.length := by
  induction cs with
  | nil => simp
  | cons c cs ih =>
      rw [List.dropWhile_cons]
      split
      · exact le_trans ih (by simp)
      · simp

/-- Python `s.split()` (no separator): maximal runs of non-whitespace
characters; leading, trailing and repeated whitespace produce no empty
tokens. -/
def pyWords (l : List Char) : List String :=
  match l with
  | [] => []
  | c :: cs =>
    if c.isWhitespace then pyWords cs
    else String.mk (c :: cs.takeWhile (fun d => !d.isWhitespace))
      :: pyWords (cs.dropWhile (fun d => !d.isWhitespace))
termination_by l.length
decreasing_by
  · simp
  · have := length_dropWhile_le_self (fun d => !d.isWhitespace) cs
    simp
    omega

/-- Python `s.strip()`: remove leading and trailing whitespace. -/
def pyStripL (l : List Char) : List Char :=
  ((l.dropWhile Char.isWhitespace).reverse.dropWhile Char.isWhitespace).reverse

/-- Python `s.replace(".", "", 1)`: remove the first `.`, if any. -/
def removeFirstDot : List Char → List Char
  | [] => []
  | c :: cs => if c = '.' then cs else c :: removeFirstDot cs

/-- The token filter of the Submit-Chat handler:
`s.replace(".", "", 1).isdigit()` (ASCII `isdigit`: nonempty and all
characters are decimal digits). -/
def tokAccept (cs : List Char) : Bool :=
  !(removeFirstDot cs).isEmpty && (removeFirstDot cs).all Char.isDigit

/-- Numeric value of a run of ASCII digits. -/
def digitsVal (cs : List Char) : Nat :=
  cs.foldl (fun n c => 10 * n + (c.toNat - 48)) 0

/-- Split a token at its first decimal point into integer and fractional
digit runs (no decimal point: empty fractional part). -/
def splitAtDot : List Char → List Char × List Char
  | [] => ([], [])
  | c :: cs =>
    if c = '.' then ([], cs)
    else ((splitAtDot cs).1.cons c, (splitAtDot cs).2)

/-- Python `float(s)` on the tokens the filter accepts: digits with at most
one decimal point, valued exactly. -/
def parseAmount (s : String) : ℚ :=
  ((digitsVal (splitAtDot s.toList).1 : ℚ)
    + (digitsVal (splitAtDot s.toList).2 : ℚ)
      / (10 : ℚ) ^ (splitAtDot s.toList).2.length)

/-- Amount extraction of the Submit-Chat handler:
`amt = [float(s) for s in user_input.split() if s.replace(".", "", 1).isdigit()]`
followed by `amt[0]` when the list is nonempty. -/
def extract_amount (text : String) : Option ℚ :=
  (((pyWords text.toList).filter (fun s => tokAccept s.toList)).map parseAmount).head?

/-- Specification-side acceptance predicate, following the spec's words: the
token parses as a non-negative decimal number with at most one decimal
point — only digits and decimal points, at most one decimal point, at least
one digit. -/
def specNonnegDecimal (cs : List Char) : Bool :=
  decide (cs.count '.' ≤ 1)
    && cs.all (fun c => c.isDigit || c == '.')
    && cs.any Char.isDigit

/-- Category extraction of the Submit-Chat handler:
`cat = "General"`, and when `"for" in user_input.lower()`,
`cat = user_input.lower().split("for")[-1].strip().split()[0]`; the result is
`none` when that final index raises `IndexError` (empty token list). -/
def extract_category (text : String) : Option String :=
  if hasSub forL (text.toList.map Char.toLower) then
    (pyWords (pyStripL
      ((splitForAux (text.toList.map Char.toLower)).getLastD []))).head?
  else some "General"

/-- Specification-side category extraction, following the spec's words:
lower-case the text; if `"for"` occurs, take everything after its last
occurrence, strip it, and take the first whitespace-delimited token (none
when there is no token); else `"General"`. -/
def specExtractCategory (text : String) : Option String :=
  match lastOccSuffixFor (text.toList.map Char.toLower) with
  | some suffix => (pyWords (pyStripL suffix)).head?
  | none => some "General"

/-! ## C3: amount extraction -/

theorem all_digit_iff_no_dot (l : List Char) :
    l.all Char.isDigit = true
      ↔ l.count '.' = 0 ∧ l.all (fun c => c.isDigit || c == '.') = true := by
  induction l with
  | nil => simp
  | cons y ys ih =>
      by_cases hy : y = '.'
      · subst hy
        have hdot : ('.' : Char).isDigit = false := by decide
        simp [List.count_cons, hdot]
      · have hy1 : (y == '.') = false := by simp [hy]
        have hy2 : ('.' == y) = false := by
          simp [beq_iff_eq]
          exact fun h => hy h.symm
        simp [List.count_cons, hy1, hy2, ih]
        tauto

theorem removeFirstDot_all_digit (l : List Char) :
    (removeFirstDot l).all Char.isDigit = true
      ↔ l.count '.' ≤ 1 ∧ l.all (fun c => c.isDigit || c == '.') = true := by
  induction l with
  | nil => simp [removeFirstDot]
  | cons z zs ih =>
      by_cases hz : z = '.'
      · subst hz
        have h1 : removeFirstDot ('.' :: zs) = zs := by simp [removeFirstDot]
        have hdd : (('.' : Char).isDigit || ('.' == '.')) = true := by decide
        rw [h1, all_digit_iff_no_dot]
        simp [List.count_cons, hdd]
      · have h1 : removeFirstDot (z :: zs) = z :: removeFirstDot zs := by
          simp [removeFirstDot, hz]
        have hz1 : (z == '.') = false := by simp [hz]
        have hz2 : ('.' == z) = false := by
          simp [beq_iff_eq]
          exact fun h => hz h.symm
        rw [h1]
        cases hd : z.isDigit with
        | true => simp [List.count_cons, hz1, hz2, hd, ih]
        | false => simp [List.count_cons, hz1, hz2, hd]

theorem mem_removeFirstDot {x : Char} {l : List Char}
    (hx : x ∈ removeFirstDot l) : x ∈ l := by
  induction l with
  | nil => simpa [removeFirstDot] using hx
  | cons c cs ih =>
      by_cases hc : c = '.'
      · subst hc
        rw [removeFirstDot] at hx
        simp at hx
        exact List.mem_cons_of_mem _ hx
      · rw [removeFirstDot, if_neg hc] at hx
        rcases List.mem_cons.mp hx with rfl | hx'
        · exact List.mem_cons_self _ _
        · exact List.mem_cons_of_mem _ (ih hx')

theorem removeFirstDot_ne_nil_of_any_digit {l : List Char}
    (h : l.any Char.isDigit = true) : removeFirstDot l ≠ [] := by
  induction l with
  | nil => simp at h
  | cons c cs ih =>
      by_cases hc : c = '.'
      · subst hc
        rw [removeFirstDot, if_pos rfl]
        have hdot : ('.' : Char).isDigit = false := by decide
        simp [hdot] at h
        intro hnil
        subst hnil
        simp at h
      · rw [removeFirstDot, if_neg hc]
        simp

theorem tokAccept_eq_specNonnegDecimal (cs : List Char) :
    tokAccept cs = specNonnegDecimal cs := by
  rw [Bool.eq_iff_iff]
  unfold tokAccept specNonnegDecimal
  simp only [Bool.and_eq_true, Bool.not_eq_true', List.isEmpty_eq_false,
    decide_eq_true_eq]
  constructor
  · rintro ⟨hne, hall⟩
    rcases removeFirstDot_all_digit cs |>.mp hall with ⟨hcount, hdot⟩
    refine ⟨⟨hcount, hdot⟩, ?_⟩
    rcases List.exists_mem_of_ne_nil _ hne with ⟨x, hx⟩
    have hxd : x.isDigit = true := by
      have := List.all_eq_true.mp hall x hx
      simpa using this
    exact List.any_eq_true.mpr ⟨x, mem_removeFirstDot hx, hxd⟩
  · rintro ⟨⟨hcount, hdot⟩, hany⟩
    refine ⟨removeFirstDot_ne_nil_of_any_digit hany, ?_⟩
    exact (removeFirstDot_all_digit cs).mpr ⟨hcount, hdot⟩

/-- C3: amount extraction tokenizes on whitespace, accepts a token iff it is
a non-negative decimal numeral (only digits and decimal points, at most one
decimal point, at least one digit), returns the first accepted token in token
order as a number, and returns none when no token qualifies; in particular
`extract_amount "I spent 200 on food" = some 200` and
`extract_amount "no numbers here" = none`. -/
theorem extract_amount_spec :
    (∀ cs : List Char, tokAccept cs = specNonnegDecimal cs)
    ∧ (∀ text : String,
        extract_amount text
          = ((pyWords text.toList).filter
              (fun s => specNonnegDecimal s.toList)).head?.map parseAmount)
    ∧ extract_amount "I spent 200 on food" = some 200
    ∧ extract_amount "no numbers here" = none := by
  refine ⟨tokAccept_eq_specNonnegDecimal, ?_, ?_, ?_⟩
  · intro text
    unfold extract_amount
    rw [List.filter_congr
      (fun s _ => tokAccept_eq_specNonnegDecimal s.toList)]
    exact List.head?_map _ _
  · unfold extract_amount
    have h1 : pyWords "I spent 200 on food".toList
        = ["I", "spent", "200", "on", "food"] := by
      simp [pyWords]
    rw [h1]
    have h2 : (["I", "spent", "200", "on", "food"].filter
        (fun s => tokAccept s.toList)) = ["200"] := by decide
    rw [h2]
    have h3 : splitAtDot ['2', '0', '0'] = (['2', '0', '0'], []) := by decide
    have h4 : digitsVal ['2', '0', '0'] = 200 := by decide
    have h5 : digitsVal [] = 0 := rfl
    simp [parseAmount, h3, h4, h5]
  · unfold extract_amount
    have h1 : pyWords "no numbers here".toList
        = ["no", "numbers", "here"] := by
      simp [pyWords]
    rw [h1]
    have h2 : (["no", "numbers", "here"].filter
        (fun s => tokAccept s.toList)) = [] := by decide
    rw [h2]
    rfl

/-! ## C5 and C6: category extraction -/

theorem splitForAux_ne_nil (l : List Char) : splitForAux l ≠ [] := by
  rw [splitForAux.eq_def]
  cases l with
  | nil => simp
  | cons c cs =>
      simp only
      split
      · simp
      · cases h : splitForAux cs with
        | nil => simp [consHead, h]
        | cons t ts => simp [consHead, h]

theorem hasSub_for_iff_lastOcc (l : List Char) :
    hasSub forL l = (lastOccSuffixFor l).isSome := by
  induction l with
  | nil => rfl
  | cons c cs ih =>
      rw [hasSub, lastOccSuffixFor]
      cases h : lastOccSuffixFor cs with
      | some t =>
          rw [h] at ih
          simp [ih]
      | none =>
          rw [h] at ih
          rw [ih]
          cases hb : beginsWith forL (c :: cs) <;> simp [hb]

theorem splitForAux_of_lastOcc_none {l : List Char}
    (h : lastOccSuffixFor l = none) : splitForAux l = [l] := by
  induction l with
  | nil => rw [splitForAux.eq_def]
  | cons c cs ih =>
      rw [lastOccSuffixFor] at h
      cases hcs : lastOccSuffixFor cs with
      | some t => rw [hcs] at h; simp at h
      | none =>
          rw [hcs] at h
          simp only at h
          cases hb : beginsWith forL (c :: cs) with
          | true => rw [hb] at h; simp at h
          | false =>
              rw [splitForAux.eq_def]
              simp only [hb, Bool.false_eq_true, if_false, ih hcs, consHead]

theorem beginsWith_for_shape {l : List Char}
    (h : beginsWith forL l = true) :
    ∃ rest, l = 'f' :: 'o' :: 'r' :: rest := by
  match l with
  | [] => simp [beginsWith, forL] at h
  | [c] => simp [beginsWith, forL] at h
  | [c, d] => simp [beginsWith, forL] at h
  | c :: d :: e :: rest =>
      simp only [forL, beginsWith, Bool.and_eq_true, beq_iff_eq] at h
      obtain ⟨hc, hd, he, -⟩ := h
      exact ⟨rest, by rw [← hc, ← hd, ← he]⟩

theorem lastOcc_or_cons (rest : List Char) :
    lastOccSuffixFor ('o' :: 'r' :: rest) = lastOccSuffixFor rest := by
  cases h : lastOccSuffixFor rest with
  | some t => simp [lastOccSuffixFor, h]
  | none => simp [lastOccSuffixFor, h, beginsWith, forL]

theorem lastOcc_some_of_cons {c : Char} {cs : List Char} {t : List Char}
    (hb : beginsWith forL (c :: cs) = false)
    (h : lastOccSuffixFor (c :: cs) = some t) :
    lastOccSuffixFor cs = some t := by
  rw [lastOccSuffixFor] at h
  cases hcs : lastOccSuffixFor cs with
  | some u => rw [hcs] at h; simpa using h
  | none => rw [hcs] at h; simp [hb] at h

theorem splitForAux_two_of_lastOcc_some {l : List Char} {t : List Char}
    (h : lastOccSuffixFor l = some t) : 2 ≤ (splitForAux l).length := by
  induction l with
  | nil => simp [lastOccSuffixFor] at h
  | cons c cs ih =>
      cases hb : beginsWith forL (c :: cs) with
      | true =>
          rw [splitForAux.eq_def]
          simp only [hb, if_true]
          have := splitForAux_ne_nil (cs.drop 2)
          cases hs : splitForAux (cs.drop 2) with
          | nil => exact absurd hs this
          | cons u us => simp
      | false =>
          have hcs := lastOcc_some_of_cons hb h
          have := ih hcs
          rw [splitForAux.eq_def]
          simp only [hb, Bool.false_eq_true, if_false]
          cases hs : splitForAux cs with
          | nil => exact absurd hs (splitForAux_ne_nil cs)
          | cons u us =>
              rw [hs] at this
              simp [consHead]
              simpa using this

theorem getLastD_irrel {α : Type} {l : List α} (h : l ≠ []) (d d' : α) :
    l.getLastD d = l.getLastD d' := by
  cases l with
  | nil => exact absurd rfl h
  | cons x xs => rw [List.getLastD_cons, List.getLastD_cons]

theorem splitForAux_getLastD_eq :
    ∀ n : Nat, ∀ l : List Char, l.length ≤ n →
      ∀ t, lastOccSuffixFor l = some t → (splitForAux l).getLastD [] = t := by
  intro n
  induction n with
  | zero =>
      intro l hl t h
      have hnil : l = [] := List.length_eq_zero.mp (Nat.le_zero.mp hl)
      subst hnil
      simp [lastOccSuffixFor] at h
  | succ n ih =>
      intro l hl t h
      cases l with
      | nil => simp [lastOccSuffixFor] at h
      | cons c cs =>
          cases hb : beginsWith forL (c :: cs) with
          | true =>
              obtain ⟨rest, hshape⟩ := beginsWith_for_shape hb
              have hc : c = 'f' := by injection hshape
              have hcs : cs = 'o' :: 'r' :: rest := by
                injection hshape with h1 h2
              subst hc
              subst hcs
              rw [lastOccSuffixFor, lastOcc_or_cons] at h
              rw [splitForAux.eq_def]
              simp only [hb, if_true]
              cases hr : lastOccSuffixFor rest with
              | some u =>
                  rw [hr] at h
                  simp only [Option.some.injEq] at h
                  subst h
                  have hlen : rest.length ≤ n := by
                    simp at hl
                    omega
                  have hres := ih rest hlen _ hr
                  simp only [List.drop_succ_cons, List.drop_zero,
                    List.getLastD_cons]
                  exact hres
              | none =>
                  rw [hr] at h
                  simp only [hb, if_true, List.drop_succ_cons,
                    List.drop_zero, Option.some.injEq] at h
                  subst h
                  simp only [List.drop_succ_cons, List.drop_zero]
                  rw [splitForAux_of_lastOcc_none hr]
                  rfl
          | false =>
              have hcs := lastOcc_some_of_cons hb h
              have h2 := splitForAux_two_of_lastOcc_some hcs
              rw [splitForAux.eq_def]
              simp only [hb, Bool.false_eq_true, if_false]
              cases hs : splitForAux cs with
              | nil => exact absurd hs (splitForAux_ne_nil cs)
              | cons u us =>
                  rw [hs] at h2
                  have hus : us ≠ [] := by
                    intro he
                    subst he
                    simp at h2
                  have hlen : cs.length ≤ n := by
                    simp at hl
                    omega
                  have hres := ih cs hlen t hcs
                  rw [hs, List.getLastD_cons] at hres
                  show ((c :: u) :: us).getLastD [] = t
                  rw [List.getLastD_cons, getLastD_irrel hus (c :: u) u]
                  exact hres

/-- C5: category extraction lower-cases the text; when the literal substring
`"for"` occurs in the lowered text it returns the first whitespace-delimited
token of the stripped remainder after the last occurrence of `"for"`,
otherwise `"General"`; the code's split-based computation agrees with the
spec's last-occurrence reading on every text, and
`extract_category "Bought groceries for Food" = some "food"`. -/
theorem extract_category_spec :
    (∀ text : String, extract_category text = specExtractCategory text)
    ∧ extract_category "Bought groceries for Food" = some "food" := by
  constructor
  · intro text
    unfold extract_category specExtractCategory
    cases h : lastOccSuffixFor (text.toList.map Char.toLower) with
    | none =>
        have hc : hasSub forL (text.toList.map Char.toLower) = false := by
          rw [hasSub_for_iff_lastOcc, h]
          rfl
        rw [hc]
        simp
    | some t =>
        have hc : hasSub forL (text.toList.map Char.toLower) = true := by
          rw [hasSub_for_iff_lastOcc, h]
          rfl
        rw [hc, if_pos rfl,
          splitForAux_getLastD_eq (text.toList.map Char.toLower).length
            (text.toList.map Char.toLower) le_rfl t h]
  · unfold extract_category
    have hlow : "Bought groceries for Food".toList.map Char.toLower
        = "bought groceries for food".toList := by decide
    rw [hlow]
    have hc : hasSub forL "bought groceries for food".toList = true := by
      decide
    rw [hc, if_pos rfl]
    have hsplit : splitForAux "bought groceries for food".toList
        = ["bought groceries ".toList, " food".toList] := by
      simp [splitForAux, beginsWith, forL, consHead]
    rw [hsplit]
    have hlast : (["bought groceries ".toList, " food".toList]).getLastD []
        = " food".toList := by decide
    rw [hlast]
    have hstrip : pyStripL " food".toList = "food".toList := by decide
    rw [hstrip]
    have hw : pyWords "food".toList = ["food"] := by simp [pyWords]
    rw [hw]
    rfl

/-! ## Intent classifier -/

/-- The fixed `intent_examples` table of `app.py`, in insertion order. -/
def intent_examples : List (String × List String) := [
  ("add income", ["I earned 5000", "My salary is 10000", "I got paid today"]),
  ("add expense", ["I spent 200 on food", "Bought groceries for 500",
                   "Paid rent 3000"]),
  ("show summary", ["What is my balance?", "Show my summary", "How much left"]),
  ("saving tips", ["give me saving tips", "how can I save more?",
                   "help me save money"]),
  ("investment tips", ["investment advice", "where should I invest?",
                       "help me invest"]),
  ("financial analysis", ["analyze my finances", "financial health check",
                          "how am I doing financially?"])]

/-- `torch.max` over a nonempty similarity row, seeded with its first
entry. -/
def pyMax (q : ℚ) (qs : List ℚ) : ℚ := qs.foldl max q

/-- The per-intent score of `classify_intent`: the maximum cosine similarity
between the message and the intent's example phrases.  `sim` is the opaque
embedding-similarity function (`util.cos_sim` composed with `encode`); every
example list of the fixed table is nonempty, so the `[]` branch is never
taken on the table. -/
def intentScore (sim : String → String → ℚ) (msg : String) :
    List String → ℚ
  | [] => 0
  | e :: es => pyMax (sim msg e) (es.map (sim msg))

/-- One step of Python `max(scores, key=...)` over the score dictionary in
insertion order: the running best is replaced only on a strictly greater
score, so ties go to the earliest intent. -/
def pyArgmaxStep (best q : String × ℚ) : String × ℚ :=
  if best.2 < q.2 then q else best

/-- `classify_intent` of `app.py`: per-intent maximum similarities over the
fixed table, then the first intent attaining the overall maximum, together
with that score. -/
def classify_intent (sim : String → String → ℚ) (msg : String) : String × ℚ :=
  match intent_examples.map (fun p => (p.1, intentScore sim msg p.2)) with
  | [] => ("", 0)
  | p :: rest => rest.foldl pyArgmaxStep p

theorem le_pyMax_seed (q : ℚ) (qs : List ℚ) : q ≤ pyMax q qs := by
  induction qs generalizing q with
  | nil => exact le_refl q
  | cons x xs ih =>
      exact le_trans (le_max_left q x) (ih (max q x))

theorem le_pyMax_mem {x : ℚ} {qs : List ℚ} (q : ℚ) (hx : x ∈ qs) :
    x ≤ pyMax q qs := by
  induction qs generalizing q with
  | nil => simp at hx
  | cons y ys ih =>
      rcases List.mem_cons.mp hx with rfl | hx'
      · exact le_trans (le_max_right q x) (le_pyMax_seed (max q x) ys)
      · exact ih hx' (q := max q y)

theorem pyMax_eq_seed_or_mem (q : ℚ) (qs : List ℚ) :
    pyMax q qs = q ∨ pyMax q qs ∈ qs := by
  induction qs generalizing q with
  | nil => exact Or.inl rfl
  | cons y ys ih =>
      have hstep : pyMax q (y :: ys) = pyMax (max q y) ys := rfl
      rcases ih (max q y) with h | h
      · rcases le_total q y with hqy | hqy
        · right
          rw [hstep, h, max_eq_right hqy]
          exact List.mem_cons_self y ys
        · left
          rw [hstep, h, max_eq_left hqy]
      · right
        rw [hstep]
        exact List.mem_cons_of_mem y h

theorem sim_le_intentScore (sim : String → String → ℚ) (msg : String)
    {e : String} {exs : List String} (he : e ∈ exs) :
    sim msg e ≤ intentScore sim msg exs := by
  cases exs with
  | nil => simp at he
  | cons e1 rest =>
      rcases List.mem_cons.mp he with rfl | h'
      · exact le_pyMax_seed _ _
      · exact le_pyMax_mem _ (List.mem_map_of_mem (sim msg) h')

theorem intentScore_attained (sim : String → String → ℚ) (msg : String)
    {exs : List String} (h : exs ≠ []) :
    ∃ e ∈ exs, sim msg e = intentScore sim msg exs := by
  cases exs with
  | nil => exact absurd rfl h
  | cons e1 rest =>
      rcases pyMax_eq_seed_or_mem (sim msg e1) (rest.map (sim msg)) with
        h1 | h1
      · exact ⟨e1, List.mem_cons_self _ _, h1.symm⟩
      · rcases List.mem_map.mp h1 with ⟨e, he, heq⟩
        exact ⟨e, List.mem_cons_of_mem _ he, heq⟩

theorem foldl_pyArgmax_spec (p : String × ℚ) (rest : List (String × ℚ)) :
    (rest.foldl pyArgmaxStep p = p ∨ rest.foldl pyArgmaxStep p ∈ rest)
    ∧ p.2 ≤ (rest.foldl pyArgmaxStep p).2
    ∧ ∀ q ∈ rest, q.2 ≤ (rest.foldl pyArgmaxStep p).2 := by
  induction rest generalizing p with
  | nil => exact ⟨Or.inl rfl, le_refl _, by simp⟩
  | cons q rest ih =>
      obtain ⟨hmem, hle, hall⟩ := ih (pyArgmaxStep p q)
      have hstep : (q :: rest).foldl pyArgmaxStep p
          = rest.foldl pyArgmaxStep (pyArgmaxStep p q) := rfl
      have hp : p.2 ≤ (pyArgmaxStep p q).2 := by
        unfold pyArgmaxStep
        split
        · exact le_of_lt (by assumption)
        · exact le_refl _
      have hq : q.2 ≤ (pyArgmaxStep p q).2 := by
        unfold pyArgmaxStep
        split
        · exact le_refl _
        · exact le_of_not_lt (by assumption)
      refine ⟨?_, ?_, ?_⟩
      · rw [hstep]
        by_cases hc : p.2 < q.2
        · have hpq : pyArgmaxStep p q = q := by
            unfold pyArgmaxStep
            rw [if_pos hc]
          rw [hpq]
          rw [hpq] at hmem
          rcases hmem with h | h
          · rw [h]
            exact Or.inr (List.mem_cons_self q rest)
          · exact Or.inr (List.mem_cons_of_mem q h)
        · have hpq : pyArgmaxStep p q = p := by
            unfold pyArgmaxStep
            rw [if_neg hc]
          rw [hpq]
          rw [hpq] at hmem
          rcases hmem with h | h
          · exact Or.inl h
          · exact Or.inr (List.mem_cons_of_mem q h)
      · rw [hstep]
        exact le_trans hp hle
      · intro x hx
        rw [hstep]
        rcases List.mem_cons.mp hx with rfl | hx'
        · exact le_trans hq hle
        · exact hall x hx'

/-- C1: for every message (and every similarity function the opaque embedding
model may realise), `classify_intent` returns a pair whose score bounds the
similarity of every example phrase of every intent (so it is the overall
maximum: it is attained, see the two existential conjuncts), whose score
bounds every per-intent maximum, and whose intent attains the returned score
through one of its own example phrases; the operation is a total function
with no error condition. -/
theorem classify_intent_spec (sim : String → String → ℚ) (msg : String) :
    (∀ p ∈ intent_examples, ∀ e ∈ p.2,
        sim msg e ≤ (classify_intent sim msg).2)
    ∧ (∀ p ∈ intent_examples,
        intentScore sim msg p.2 ≤ (classify_intent sim msg).2)
    ∧ (∃ p ∈ intent_examples, p.1 = (classify_intent sim msg).1
        ∧ intentScore sim msg p.2 = (classify_intent sim msg).2)
    ∧ (∃ p ∈ intent_examples, ∃ e ∈ p.2, p.1 = (classify_intent sim msg).1
        ∧ sim msg e = (classify_intent sim msg).2) := by
  have hcl : classify_intent sim msg
      = List.foldl pyArgmaxStep
          ("add income", intentScore sim msg
            ["I earned 5000", "My salary is 10000", "I got paid today"])
          [("add expense", intentScore sim msg
              ["I spent 200 on food", "Bought groceries for 500",
               "Paid rent 3000"]),
            ("show summary", intentScore sim msg
              ["What is my balance?", "Show my summary", "How much left"]),
            ("saving tips", intentScore sim msg
              ["give me saving tips", "how can I save more?",
               "help me save money"]),
            ("investment tips", intentScore sim msg
              ["investment advice", "where should I invest?",
               "help me invest"]),
            ("financial analysis", intentScore sim msg
              ["analyze my finances", "financial health check",
               "how am I doing financially?"])] := rfl
  obtain ⟨hmem, hle1, hall⟩ := foldl_pyArgmax_spec
    ("add income", intentScore sim msg
      ["I earned 5000", "My salary is 10000", "I got paid today"])
    [("add expense", intentScore sim msg
        ["I spent 200 on food", "Bought groceries for 500", "Paid rent 3000"]),
      ("show summary", intentScore sim msg
        ["What is my balance?", "Show my summary", "How much left"]),
      ("saving tips", intentScore sim msg
        ["give me saving tips", "how can I save more?", "help me save money"]),
      ("investment tips", intentScore sim msg
        ["investment advice", "where should I invest?", "help me invest"]),
      ("financial analysis", intentScore sim msg
        ["analyze my finances", "financial health check",
         "how am I doing financially?"])]
  have hintent : ∀ p ∈ intent_examples,
      intentScore sim msg p.2 ≤ (classify_intent sim msg).2 := by
    intro p hp
    rw [hcl]
    simp only [intent_examples, List.mem_cons, List.not_mem_nil,
      or_false] at hp
    rcases hp with rfl | rfl | rfl | rfl | rfl | rfl
    · exact hle1
    · exact hall ("add expense", intentScore sim msg
        ["I spent 200 on food", "Bought groceries for 500", "Paid rent 3000"])
        (by simp)
    · exact hall ("show summary", intentScore sim msg
        ["What is my balance?", "Show my summary", "How much left"]) (by simp)
    · exact hall ("saving tips", intentScore sim msg
        ["give me saving tips", "how can I save more?", "help me save money"])
        (by simp)
    · exact hall ("investment tips", intentScore sim msg
        ["investment advice", "where should I invest?", "help me invest"])
        (by simp)
    · exact hall ("financial analysis", intentScore sim msg
        ["analyze my finances", "financial health check",
         "how am I doing financially?"]) (by simp)
  have hkey : ∃ p ∈ intent_examples, p.1 = (classify_intent sim msg).1
      ∧ intentScore sim msg p.2 = (classify_intent sim msg).2 := by
    rcases hmem with h | h
    · exact ⟨("add income",
        ["I earned 5000", "My salary is 10000", "I got paid today"]),
        by decide, by rw [hcl, h], by rw [hcl, h]⟩
    · simp only [List.mem_cons, List.not_mem_nil, or_false] at h
      rcases h with h | h | h | h | h
      · exact ⟨("add expense",
          ["I spent 200 on food", "Bought groceries for 500",
           "Paid rent 3000"]),
          by decide, by rw [hcl, h], by rw [hcl, h]⟩
      · exact ⟨("show summary",
          ["What is my balance?", "Show my summary", "How much left"]),
          by decide, by rw [hcl, h], by rw [hcl, h]⟩
      · exact ⟨("saving tips",
          ["give me saving tips", "how can I save more?",
           "help me save money"]),
          by decide, by rw [hcl, h], by rw [hcl, h]⟩
      · exact ⟨("investment tips",
          ["investment advice", "where should I invest?", "help me invest"]),
          by decide, by rw [hcl, h], by rw [hcl, h]⟩
      · exact ⟨("financial analysis",
          ["analyze my finances", "financial health check",
           "how am I doing financially?"]),
          by decide, by rw [hcl, h], by rw [hcl, h]⟩
  have hne : ∀ p ∈ intent_examples, p.2 ≠ [] := by decide
  refine ⟨fun p hp e he =>
      le_trans (sim_le_intentScore sim msg he) (hintent p hp),
    hintent, hkey, ?_⟩
  obtain ⟨p, hp, hname, hscore⟩ := hkey
  obtain ⟨e, he, hsim⟩ := intentScore_attained sim msg (hne p hp)
  exact ⟨p, hp, e, he, hname, by rw [hsim, hscore]⟩

/-- Witness for C1 at a concrete similarity function and message: the score
bound instantiated at the first example of the first intent. -/
theorem classify_intent_spec_witness :
    (0 : ℚ) ≤ (classify_intent (fun _ _ => 0) "hello").2 :=
  (classify_intent_spec (fun _ _ => 0) "hello").1
    ("add income", ["I earned 5000", "My salary is 10000", "I got paid today"])
    (by decide) "I earned 5000" (by decide)

/-! ## Conversation router (the Submit-Chat handler) -/

/-- The default system instruction of `get_granite_answer` (used when
`system_message` is `None`, i.e. on the raw fallback forward). -/
def default_system_message : String :=
  "You are a helpful, concise financial advisor. Provide practical advice about personal finance, budgeting, saving, and investing."

/-- The prompt string `get_granite_answer` builds for the external model. -/
def granite_full_prompt (prompt system_message : String) : String :=
  "System: " ++ system_message ++ "\nUser: " ++ prompt ++ "\nAssistant:"

/-- One user-visible output of the Submit-Chat handler.  `llmForward` records
the request passed to the opaque external model (raw prompt text and system
instruction) whose answer is displayed; the three advice outputs stand for
the advice-generator calls, which read the recorded summary and delegate to
the same opaque model (their templated prompt texts are outside the claims'
scope); the others mirror the `st.success` / `st.error` / `st.info`
messages. -/
inductive BotOutput where
  | addedIncome (amount : ℚ)
  | addedExpense (category : String) (amount : ℚ)
  | showSummary (summary : ℚ × ℚ × ℚ)
  | adviceSavingTips (summary : ℚ × ℚ × ℚ)
  | adviceInvestmentTips (summary : ℚ × ℚ × ℚ)
  | adviceFinancialAnalysis (summary : ℚ × ℚ × ℚ)
  | llmForward (prompt : String) (system_message : String)
deriving Repr, DecidableEq

/-- Result of one Submit-Chat interaction: the ledger afterwards together
with the outputs displayed, or an uncaught `IndexError` (`crash`) carrying
the ledger as it was when the exception was raised. -/
inductive StepResult where
  | ok (ledger : Ledger) (outputs : List BotOutput)
  | crash (ledger : Ledger)
deriving Repr, DecidableEq

/-- The Submit-Chat handler of `app.py`: ignore blank input; classify; above
the fixed 0.6 threshold branch on the intent (adding transactions, showing
the summary, or calling an advice generator — with the category extraction
of the add-expense branch able to raise an uncaught `IndexError` before the
amount check); at or below the threshold forward the raw message to the
external model with the default system instruction. -/
def submit_chat (sim : String → String → ℚ) (l : Ledger)
    (today user_input : String) : StepResult :=
  if pyStripL user_input.toList ≠ [] then
    if (classify_intent sim user_input).2 > 0.6 then
      if (classify_intent sim user_input).1 = "add income" then
        match extract_amount user_input with
        | some a =>
            .ok (add_transaction l "Income" a "General" user_input today)
              [.addedIncome a]
        | none => .ok l []
      else if (classify_intent sim user_input).1 = "add expense" then
        match extract_category user_input, extract_amount user_input with
        | none, _ => .crash l
        | some cat, some a =>
            .ok (add_transaction l "Expense" a cat user_input today)
              [.addedExpense cat a]
        | some _, none => .ok l []
      else if (classify_intent sim user_input).1 = "show summary" then
        .ok l [.showSummary (get_summary l)]
      else if (classify_intent sim user_input).1 = "saving tips" then
        .ok l [.adviceSavingTips (get_summary l)]
      else if (classify_intent sim user_input).1 = "investment tips" then
        .ok l [.adviceInvestmentTips (get_summary l)]
      else if (classify_intent sim user_input).1 = "financial analysis" then
        .ok l [.adviceFinancialAnalysis (get_summary l)]
      else .ok l []
    else
      .ok l [.llmForward user_input default_system_message]
  else .ok l []

/-- C2: every submitted (non-blank) message whose classification score is at
most 0.6 is forwarded raw to the external model with the default
financial-advisor system instruction and its answer displayed, and the
ledger is left completely unchanged. -/
theorem below_threshold_forwards (sim : String → String → ℚ) (l : Ledger)
    (today msg : String)
    (hne : pyStripL msg.toList ≠ [])
    (hs : (classify_intent sim msg).2 ≤ 0.6) :
    submit_chat sim l today msg
      = .ok l [.llmForward msg default_system_message] := by
  unfold submit_chat
  rw [if_pos hne, if_neg (not_lt.mpr hs)]

theorem classify_const_zero (msg : String) :
    classify_intent (fun _ _ => 0) msg = ("add income", 0) := by
  simp [classify_intent, intent_examples, intentScore, pyMax, pyArgmaxStep]

/-- Witness for C2 at a concrete similarity function (constant 0, so the
score 0 is below the threshold) and message. -/
theorem below_threshold_forwards_witness :
    submit_chat (fun _ _ => 0) init_db "2026-10-12" "hello"
      = .ok init_db [.llmForward "hello" default_system_message] := by
  apply below_threshold_forwards
  · decide
  · rw [classify_const_zero]
    norm_num

theorem classify_const_one (msg : String) :
    classify_intent (fun _ _ => 1) msg = ("add income", 1) := by
  simp [classify_intent, intent_examples, intentScore, pyMax, pyArgmaxStep]

/-- C4 counterexample: a message classified "add income" with score 1 > 0.6
and with no numeric amount token makes the handler emit no output at all —
in particular no "no amount detected" warning exists anywhere in the code
(the `if amt:` blocks have no `else`). -/
theorem no_amount_counterexample :
    (classify_intent (fun _ _ => 1) "I earned some money").1 = "add income"
    ∧ (0.6 : ℚ) < (classify_intent (fun _ _ => 1) "I earned some money").2
    ∧ extract_amount "I earned some money" = none
    ∧ submit_chat (fun _ _ => 1) init_db "2026-10-12" "I earned some money"
        = .ok init_db [] := by
  have hc := classify_const_one "I earned some money"
  have ha : extract_amount "I earned some money" = none := by
    unfold extract_amount
    have h1 : pyWords "I earned some money".toList
        = ["I", "earned", "some", "money"] := by
      simp [pyWords]
    rw [h1]
    decide
  refine ⟨by rw [hc], by rw [hc]; norm_num, ha, ?_⟩
  unfold submit_chat
  rw [if_pos (by decide), hc, ha]
  norm_num

/-- C4 as amended: when the score exceeds 0.6, the intent is "add income"
(or "add expense" with category extraction succeeding) and no numeric amount
token is found, the handler performs no ledger mutation and emits no output
at all — silently; no "no amount detected" warning is displayed. -/
theorem no_amount_silent (sim : String → String → ℚ) (l : Ledger)
    (today msg : String)
    (hne : pyStripL msg.toList ≠ [])
    (hscore : (0.6 : ℚ) < (classify_intent sim msg).2)
    (hintent : (classify_intent sim msg).1 = "add income"
      ∨ ((classify_intent sim msg).1 = "add expense"
          ∧ extract_category msg ≠ none))
    (hamt : extract_amount msg = none) :
    submit_chat sim l today msg = .ok l [] := by
  unfold submit_chat
  rw [if_pos hne, if_pos hscore]
  rcases hintent with hint | ⟨hint, hcat⟩
  · rw [if_pos hint, hamt]
  · have hni : ¬((classify_intent sim msg).1 = "add income") := by
      rw [hint]
      decide
    rw [if_neg hni, if_pos hint]
    obtain ⟨c, hc⟩ := Option.ne_none_iff_exists'.mp hcat
    rw [hc, hamt]

/-- Witness for the amended C4 at a concrete input (constant similarity 1, so
intent "add income" with score 1 > 0.6; no numeric token). -/
theorem no_amount_silent_witness :
    submit_chat (fun _ _ => 1) init_db "2026-10-12" "I earned some money"
      = .ok init_db [] := by
  apply no_amount_silent
  · decide
  · rw [classify_const_one]
    norm_num
  · left
    rw [classify_const_one]
  · unfold extract_amount
    have h1 : pyWords "I earned some money".toList
        = ["I", "earned", "some", "money"] := by
      simp [pyWords]
    rw [h1]
    decide

theorem pyStripL_of_all_ws {l : List Char}
    (h : l.all Char.isWhitespace = true) : pyStripL l = [] := by
  have hd : l.dropWhile Char.isWhitespace = [] := by
    rw [List.dropWhile_eq_nil_iff]
    intro x hx
    exact List.all_eq_true.mp h x hx
  unfold pyStripL
  rw [hd]
  rfl

/-- C6: on every message whose lowered text contains "for" with only
whitespace after its last occurrence, category extraction indexes an empty
token list — modelled as `none` — and the add-expense branch of the handler
(score above threshold, intent "add expense") raises the uncaught
`IndexError`, crashing before the amount-present check is ever consulted
(no hypothesis on `extract_amount` is needed; the concrete witness even has
an amount present). -/
theorem extract_category_crash (sim : String → String → ℚ) (l : Ledger)
    (today msg : String)
    (hne : pyStripL msg.toList ≠ [])
    (hscore : (0.6 : ℚ) < (classify_intent sim msg).2)
    (hintent : (classify_intent sim msg).1 = "add expense")
    (hws : ∃ suf, lastOccSuffixFor (msg.toList.map Char.toLower) = some suf
      ∧ suf.all Char.isWhitespace = true) :
    extract_category msg = none
    ∧ submit_chat sim l today msg = .crash l := by
  obtain ⟨suf, hsuf, hall⟩ := hws
  have hcat : extract_category msg = none := by
    unfold extract_category
    have hc : hasSub forL (msg.toList.map Char.toLower) = true := by
      rw [hasSub_for_iff_lastOcc, hsuf]
      rfl
    rw [hc, if_pos rfl,
      splitForAux_getLastD_eq (msg.toList.map Char.toLower).length
        (msg.toList.map Char.toLower) le_rfl suf hsuf,
      pyStripL_of_all_ws hall]
    simp [pyWords]
  refine ⟨hcat, ?_⟩
  unfold submit_chat
  rw [if_pos hne, if_pos hscore]
  have hni : ¬((classify_intent sim msg).1 = "add income") := by
    rw [hintent]
    decide
  rw [if_neg hni, if_pos hintent, hcat]

/-- Witness for C6: the message "Paid 200 for" (with a similarity function
making "add expense" win with score 1) crashes the handler even though an
amount token (200) is present. -/
theorem extract_category_crash_witness :
    extract_category "Paid 200 for" = none
    ∧ submit_chat (fun _ e => if e = "Paid rent 3000" then 1 else 0) init_db
        "2026-10-12" "Paid 200 for" = .crash init_db
    ∧ extract_amount "Paid 200 for" = some 200 := by
  have hc : classify_intent
      (fun _ e => if e = "Paid rent 3000" then (1 : ℚ) else 0) "Paid 200 for"
      = ("add expense", 1) := by
    simp +decide [classify_intent, intent_examples, intentScore, pyMax,
      pyArgmaxStep]
  have hmain := extract_category_crash
    (fun _ e => if e = "Paid rent 3000" then (1 : ℚ) else 0) init_db
    "2026-10-12" "Paid 200 for" (by decide)
    (by rw [hc]; norm_num) (by rw [hc]) ⟨[], by decide, by decide⟩
  refine ⟨hmain.1, hmain.2, ?_⟩
  unfold extract_amount
  have h1 : pyWords "Paid 200 for".toList = ["Paid", "200", "for"] := by
    simp [pyWords]
  rw [h1]
  have h2 : (["Paid", "200", "for"].filter (fun s => tokAccept s.toList))
      = ["200"] := by decide
  rw [h2]
  have h3 : splitAtDot ['2', '0', '0'] = (['2', '0', '0'], []) := by decide
  have h4 : digitsVal ['2', '0', '0'] = 200 := by decide
  have h5 : digitsVal [] = 0 := rfl
  simp [parseAmount, h3, h4, h5]
